import Mathlib

/-!
Shallow embedding of the cache simulator from `src/csim.c`.

The C program keeps a global `Cache` (an array of `CacheSet`s, each an array
of `Cacheline`s plus a fill cursor `line_index`), a global LRU clock
`timeStamp`, and a statistics record.  Every memory-access record drives
`update_cache`, which decomposes the address, looks for a hit, and otherwise
performs a cold fill or an LRU eviction.  The embedding below renders each C
function as a pure Lean function threading the mutated pieces of state
explicitly; machine integers become `Nat` (the C counters are 64-bit and the
claims all live far below overflow, which the spec acknowledges as an
unhandled limitation of the original design).
-/

set_option maxHeartbeats 1000000

namespace Csim

/-- One cache line (C struct `Cacheline`): valid bit, dirty bit, tag and the
LRU timestamp last written to it. -/
structure Cacheline where
  valid : Bool
  dirty : Bool
  tag : Nat
  lru : Nat
  deriving DecidableEq, Inhabited

/-- One cache set (C struct `CacheSet`): its lines and the fill cursor
`line_index`, the index of the next line to be used before eviction. -/
structure CacheSet where
  lines : List Cacheline
  line_index : Nat
  deriving DecidableEq, Inhabited

/-- The statistics record (C struct `csim_stats_t`). -/
structure Stats where
  hits : Nat
  misses : Nat
  evictions : Nat
  dirty_bytes : Nat
  dirty_evictions : Nat
  deriving DecidableEq, Inhabited

/-- The whole mutable state of the simulator: the cache (C global
`cache_simulator`), the LRU clock (C global `timeStamp`) and the statistics
(C global `stats`). -/
structure SimState where
  sets : List CacheSet
  timeStamp : Nat
  stats : Stats
  deriving DecidableEq, Inhabited

/-- `lines[i]` of a set; C array indexing (all uses in the program are in
bounds, which the theorems carry as explicit hypotheses). -/
def lineAt (cs : CacheSet) (i : Nat) : Cacheline :=
  cs.lines.getD i default

/-- C `update_cacheline`: set `valid = 1`, the new tag, `lru = timeStamp++`
and the dirty bit from the operation.  Returns the new line together with the
post-incremented timestamp. -/
def update_cacheline (tag_index : Nat) (Op : Char) (ts : Nat) :
    Cacheline × Nat :=
  ({ valid := true, tag := tag_index, lru := ts, dirty := Op == 'S' }, ts + 1)

/-- The loop body of C `line2replace`: scan indices `i, i+1, ...` for `fuel`
more iterations, keeping the current minimum `min_lru` and its index
`lru_index`; the comparison `min_lru > lines[i].lru` is strict, so the
earliest-seen minimum is kept. -/
def line2replaceGo (cs : CacheSet) (i fuel lru_index min_lru : Nat) : Nat :=
  match fuel with
  | 0 => lru_index
  | fuel' + 1 =>
    if min_lru > (lineAt cs i).lru then
      line2replaceGo cs (i + 1) fuel' i (lineAt cs i).lru
    else
      line2replaceGo cs (i + 1) fuel' lru_index min_lru

/-- C `line2replace`: index of the least-recently-used line among the first
`lines_no` lines of the set, starting from `lines[0].lru`. -/
def line2replace (cs : CacheSet) (lines_no : Nat) : Nat :=
  line2replaceGo cs 0 lines_no 0 (lineAt cs 0).lru

/-- The hit test of C `detect_hit`: `line->valid == 1 && line->tag == tag`. -/
def hitMatch (line : Cacheline) (tag_index : Nat) : Bool :=
  line.valid && line.tag == tag_index

/-- The loop of C `detect_hit`: scan indices `i, i+1, ...` for `fuel` more
iterations; on the first matching line, bump `hits`, stamp the line with
`lru = timeStamp++`, and if the operation is a store on a clean line set the
dirty bit and add the block size to `dirty_bytes`.  Returns `none` when the
loop falls through (a miss), in which case no state was changed. -/
def detect_hitGo (cs : CacheSet) (tag_index block_bits : Nat) (Op : Char)
    (ts : Nat) (st : Stats) (i fuel : Nat) : Option (CacheSet × Nat × Stats) :=
  match fuel with
  | 0 => none
  | fuel' + 1 =>
    let line := lineAt cs i
    if hitMatch line tag_index then
      let line' :=
        if Op == 'S' && !line.dirty then
          { line with lru := ts, dirty := true }
        else
          { line with lru := ts }
      some
        ({ cs with lines := cs.lines.set i line' },
         ts + 1,
         { st with hits := st.hits + 1,
                   dirty_bytes :=
                     if Op == 'S' && !line.dirty then
                       st.dirty_bytes + 2 ^ block_bits
                     else st.dirty_bytes })
    else
      detect_hitGo cs tag_index block_bits Op ts st (i + 1) fuel'

/-- C `detect_hit`: scan the set's first `lines_no` lines in storage order. -/
def detect_hit (cs : CacheSet) (tag_index lines_no block_bits : Nat)
    (Op : Char) (ts : Nat) (st : Stats) : Option (CacheSet × Nat × Stats) :=
  detect_hitGo cs tag_index block_bits Op ts st 0 lines_no

/-- The update `detect_hit` applies to the matched line: stamp `lru` with the
clock, and set the dirty bit exactly on a store to a clean line; `valid` and
`tag` are untouched. -/
def hitLine (line : Cacheline) (Op : Char) (ts : Nat) : Cacheline :=
  if Op == 'S' && !line.dirty then { line with lru := ts, dirty := true }
  else { line with lru := ts }

/-- The statistics update of a hit: `hits` goes up by one and `dirty_bytes`
grows by the block size exactly on a store to a clean line; `misses`,
`evictions` and `dirty_evictions` are untouched. -/
def hitStats (st : Stats) (line : Cacheline) (Op : Char) (block_bits : Nat) :
    Stats :=
  { st with hits := st.hits + 1,
            dirty_bytes :=
              if Op == 'S' && !line.dirty then st.dirty_bytes + 2 ^ block_bits
              else st.dirty_bytes }

/-- C `detect_coldmiss`: fill the line at the fill cursor via
`update_cacheline`, add the block size to `dirty_bytes` when the new line is
dirty, and advance the cursor. -/
def detect_coldmiss (target_set : CacheSet) (tag_index block_bits : Nat)
    (Op : Char) (ts : Nat) (st : Stats) : CacheSet × Nat × Stats :=
  let p := update_cacheline tag_index Op ts
  let st' :=
    if p.1.dirty then
      { st with dirty_bytes := st.dirty_bytes + 2 ^ block_bits }
    else st
  ({ lines := target_set.lines.set target_set.line_index p.1,
     line_index := target_set.line_index + 1 }, p.2, st')

/-- C `detect_othermiss`: pick the LRU victim with `line2replace`; if it is
dirty, move the block size from `dirty_bytes` to `dirty_evictions`; overwrite
it via `update_cacheline` (which already bumps the clock once), re-add the
block size when the new line is dirty, then stamp the line again with
`lru = timeStamp++` (a second clock increment) and bump `evictions`. -/
def detect_othermiss (target_set : CacheSet)
    (tag_index block_bits lines_no : Nat) (Op : Char) (ts : Nat) (st : Stats) :
    CacheSet × Nat × Stats :=
  let lru_index := line2replace target_set lines_no
  let victim := lineAt target_set lru_index
  let st1 :=
    if victim.dirty then
      { st with dirty_evictions := st.dirty_evictions + 2 ^ block_bits,
                dirty_bytes := st.dirty_bytes - 2 ^ block_bits }
    else st
  let p := update_cacheline tag_index Op ts
  let st2 :=
    if p.1.dirty then
      { st1 with dirty_bytes := st1.dirty_bytes + 2 ^ block_bits }
    else st1
  let st3 := { st2 with evictions := st2.evictions + 1 }
  ({ target_set with
      lines := target_set.lines.set lru_index { p.1 with lru := p.2 } },
   p.2 + 1, st3)

/-- The set-index computation of C `update_cache`:
`(address >> block_bits) & (((unsigned long)-1) >> (64 - set_bits))`,
overridden to `0` when `set_bits == 0` (the C code assigns `set_index = 0`
after the mask computation; the observable value is the override). -/
def set_index_of (address set_bits block_bits : Nat) : Nat :=
  let raw := (address >>> block_bits) &&& ((2 ^ 64 - 1) >>> (64 - set_bits))
  if set_bits = 0 then 0 else raw

/-- The tag computation of C `update_cache`:
`address >> (block_bits + set_bits)`. -/
def tag_index_of (address set_bits block_bits : Nat) : Nat :=
  address >>> (block_bits + set_bits)

/-- C `update_cache`: decompose the address, try `detect_hit`; on a miss bump
`misses` and dispatch on the fill cursor to `detect_coldmiss` (cursor below
`lines_no`) or `detect_othermiss` (set full). -/
def update_cache (state : SimState) (address set_bits block_bits lines_no : Nat)
    (Op : Char) : SimState :=
  let set_index := set_index_of address set_bits block_bits
  let tag_index := tag_index_of address set_bits block_bits
  let target_set := state.sets.getD set_index default
  match detect_hit target_set tag_index lines_no block_bits Op
      state.timeStamp state.stats with
  | some r =>
    { sets := state.sets.set set_index r.1, timeStamp := r.2.1,
      stats := r.2.2 }
  | none =>
    let st1 := { state.stats with misses := state.stats.misses + 1 }
    if target_set.line_index < lines_no then
      let r := detect_coldmiss target_set tag_index block_bits Op
        state.timeStamp st1
      { sets := state.sets.set set_index r.1, timeStamp := r.2.1,
        stats := r.2.2 }
    else
      let r := detect_othermiss target_set tag_index block_bits lines_no Op
        state.timeStamp st1
      { sets := state.sets.set set_index r.1, timeStamp := r.2.1,
        stats := r.2.2 }

/-- C `initCache` plus the zeroing of `stats` and `timeStamp` in `main`:
`2^s` sets of `E` lines, every field zero. -/
def initCache (set_bits lines_no block_bits : Nat) : SimState :=
  { sets := List.replicate (2 ^ set_bits)
      { lines := List.replicate lines_no
          { valid := false, dirty := false, tag := 0, lru := 0 },
        line_index := 0 },
    timeStamp := 0,
    stats := { hits := 0, misses := 0, evictions := 0, dirty_bytes := 0,
               dirty_evictions := 0 } }

/-- The driving loop of C `process_trace_file`: feed each `(Op, address)`
record to `update_cache` in file order, starting from the freshly initialized
cache.  (The parsed `size` field is accepted by the parser but never passed to
`update_cache`, so records carry only the operation and the address.) -/
def runTrace (set_bits block_bits lines_no : Nat)
    (trace : List (Char × Nat)) : SimState :=
  trace.foldl
    (fun st r => update_cache st r.2 set_bits block_bits lines_no r.1)
    (initCache set_bits lines_no block_bits)

/-! ### Specification-side observers -/

/-- The index of the first line among `lines[i..i+fuel)` that `detect_hit`
would match, if any. -/
def firstHitIdxGo (cs : CacheSet) (tag_index i fuel : Nat) : Option Nat :=
  match fuel with
  | 0 => none
  | fuel' + 1 =>
    if hitMatch (lineAt cs i) tag_index then some i
    else firstHitIdxGo cs tag_index (i + 1) fuel'

/-- The index of the first line among the set's first `lines_no` lines that
`detect_hit` would match, if any. -/
def firstHitIdx (cs : CacheSet) (tag_index lines_no : Nat) : Option Nat :=
  firstHitIdxGo cs tag_index 0 lines_no

/-- A line counted by the dirty-byte invariant: valid and dirty. -/
def dirtyLine (line : Cacheline) : Bool :=
  line.valid && line.dirty

/-- Number of valid-and-dirty lines of one set. -/
def setDirtyCount (cs : CacheSet) : Nat :=
  cs.lines.countP dirtyLine

/-- Number of valid-and-dirty lines of the whole cache; the dirty-byte
invariant says `dirty_bytes` is this count times the block size `2^b`. -/
def cacheDirtyCount (sets : List CacheSet) : Nat :=
  (sets.map setDirtyCount).sum

/-- Well-formedness of one set for a cache with `E` lines per set: the line
array has length `E`, the fill cursor never exceeds `E`, and exactly the
lines strictly below the cursor are valid. -/
def SetWf (cs : CacheSet) (E : Nat) : Prop :=
  cs.lines.length = E ∧ cs.line_index ≤ E ∧
    ∀ i, i < E → ((lineAt cs i).valid = true ↔ i < cs.line_index)

/-- The reachable-state invariant of the simulator: `2^s` well-formed sets
and the dirty-byte accounting equation. -/
def SimInv (st : SimState) (set_bits lines_no block_bits : Nat) : Prop :=
  st.sets.length = 2 ^ set_bits ∧
    (∀ k, k < st.sets.length → SetWf (st.sets.getD k default) lines_no) ∧
    st.stats.dirty_bytes = cacheDirtyCount st.sets * 2 ^ block_bits

/-! ### Generic list lemmas -/

lemma getD_set_self {α : Type} (l : List α) (j : Nat) (x d : α)
    (h : j < l.length) : (l.set j x).getD j d = x := by
  induction l generalizing j with
  | nil => simp at h
  | cons a t ih =>
    cases j with
    | zero => simp [List.set]
    | succ j' =>
      simp only [List.set, List.getD_cons_succ]
      exact ih j' (by simpa using h)

lemma getD_set_ne {α : Type} (l : List α) (i j : Nat) (x d : α)
    (h : i ≠ j) : (l.set j x).getD i d = l.getD i d := by
  induction l generalizing i j with
  | nil => simp [List.set]
  | cons a t ih =>
    cases j with
    | zero =>
      cases i with
      | zero => exact absurd rfl h
      | succ i' => simp [List.set]
    | succ j' =>
      cases i with
      | zero => simp [List.set]
      | succ i' =>
        simp only [List.set, List.getD_cons_succ]
        exact ih i' j' (by omega)

lemma getD_eq_get {α : Type} (l : List α) (i : Nat) (d : α)
    (h : i < l.length) : l.getD i d = l.get ⟨i, h⟩ := by
  induction l generalizing i with
  | nil => simp at h
  | cons a t ih =>
    cases i with
    | zero => simp
    | succ i' => simpa using ih i' (by simpa using h)

lemma getD_mem {α : Type} (l : List α) (i : Nat) (d : α)
    (h : i < l.length) : l.getD i d ∈ l := by
  rw [getD_eq_get l i d h]
  exact l.get_mem i h

lemma countP_set {α : Type} (p : α → Bool) (l : List α) (j : Nat) (x d : α)
    (h : j < l.length) :
    (l.set j x).countP p + (if p (l.getD j d) then 1 else 0) =
      l.countP p + (if p x then 1 else 0) := by
  induction l generalizing j with
  | nil => simp at h
  | cons a t ih =>
    cases j with
    | zero => simp [List.set, List.countP_cons]; omega
    | succ j' =>
      simp only [List.set, List.getD_cons_succ, List.countP_cons]
      have := ih j' (by simpa using h)
      omega

lemma sum_map_set {α : Type} (f : α → Nat) (l : List α) (j : Nat) (x d : α)
    (h : j < l.length) :
    ((l.set j x).map f).sum + f (l.getD j d) = (l.map f).sum + f x := by
  induction l generalizing j with
  | nil => simp at h
  | cons a t ih =>
    cases j with
    | zero => simp [List.set]; omega
    | succ j' =>
      simp only [List.set, List.getD_cons_succ, List.map_cons, List.sum_cons]
      have := ih j' (by simpa using h)
      omega

lemma le_sum_map {α : Type} (f : α → Nat) (l : List α) (j : Nat) (d : α)
    (h : j < l.length) : f (l.getD j d) ≤ (l.map f).sum := by
  induction l generalizing j with
  | nil => simp at h
  | cons a t ih =>
    cases j with
    | zero => simp
    | succ j' =>
      simp only [List.getD_cons_succ, List.map_cons, List.sum_cons]
      have := ih j' (by simpa using h)
      omega

lemma countP_pos_getD {α : Type} (p : α → Bool) (l : List α) (j : Nat) (d : α)
    (h : j < l.length) (hp : p (l.getD j d) = true) : 1 ≤ l.countP p := by
  induction l generalizing j with
  | nil => simp at h
  | cons a t ih =>
    cases j with
    | zero => simp at hp; simp [List.countP_cons, hp]
    | succ j' =>
      simp only [List.getD_cons_succ] at hp
      have := ih j' (by simpa using h) hp
      simp [List.countP_cons]
      omega

lemma getD_replicate {α : Type} (n i : Nat) (a d : α) (h : i < n) :
    (List.replicate n a).getD i d = a := by
  induction n generalizing i with
  | zero => omega
  | succ n' ih =>
    cases i with
    | zero => simp [List.replicate]
    | succ i' => simpa [List.replicate] using ih i' (by omega)

/-! ### Characterization of the hit-detection scan -/

lemma firstHitIdxGo_some (cs : CacheSet) (tag_index : Nat) :
    ∀ fuel i j, firstHitIdxGo cs tag_index i fuel = some j →
      i ≤ j ∧ j < i + fuel ∧ hitMatch (lineAt cs j) tag_index = true ∧
        ∀ k, i ≤ k → k < j → hitMatch (lineAt cs k) tag_index = false := by
  intro fuel
  induction fuel with
  | zero => intro i j h; simp [firstHitIdxGo] at h
  | succ fuel' ih =>
    intro i j h
    simp only [firstHitIdxGo] at h
    by_cases hm : hitMatch (lineAt cs i) tag_index = true
    · simp [hm] at h
      subst h
      exact ⟨le_refl i, by omega, hm, fun k h1 h2 => by omega⟩
    · simp [hm] at h
      obtain ⟨h1, h2, h3, h4⟩ := ih (i + 1) j h
      refine ⟨by omega, by omega, h3, fun k hk1 hk2 => ?_⟩
      by_cases hki : k = i
      · subst hki; simpa using hm
      · exact h4 k (by omega) hk2

lemma firstHitIdxGo_none (cs : CacheSet) (tag_index : Nat) :
    ∀ fuel i, firstHitIdxGo cs tag_index i fuel = none ↔
      ∀ k, i ≤ k → k < i + fuel → hitMatch (lineAt cs k) tag_index = false := by
  intro fuel
  induction fuel with
  | zero => intro i; simp [firstHitIdxGo]; intro k h1 h2; omega
  | succ fuel' ih =>
    intro i
    simp only [firstHitIdxGo]
    by_cases hm : hitMatch (lineAt cs i) tag_index = true
    · simp [hm]
      exact ⟨i, le_refl i, by omega, hm⟩
    · simp [hm, ih (i + 1)]
      constructor
      · intro h k h1 h2
        by_cases hki : k = i
        · subst hki; simpa using hm
        · exact h k (by omega) (by omega)
      · intro h k h1 h2
        exact h k (by omega) (by omega)

/-- The loop of `detect_hit` computed in closed form: it returns exactly the
first matching line's index (as found by `firstHitIdxGo`); on a hit at `j`,
only line `j` changes — its `lru` is stamped with the clock, its `dirty` bit
is set exactly when the operation is a store on a clean line — the clock
advances by one, `hits` goes up by one and `dirty_bytes` grows by the block
size exactly on a clean-line store. -/
lemma detect_hitGo_eq (cs : CacheSet) (tag_index block_bits : Nat) (Op : Char)
    (ts : Nat) (st : Stats) :
    ∀ fuel i, detect_hitGo cs tag_index block_bits Op ts st i fuel =
      (firstHitIdxGo cs tag_index i fuel).map (fun j =>
        ({ cs with lines := cs.lines.set j (hitLine (lineAt cs j) Op ts) },
         ts + 1, hitStats st (lineAt cs j) Op block_bits)) := by
  intro fuel
  induction fuel with
  | zero => intro i; simp [detect_hitGo, firstHitIdxGo]
  | succ fuel' ih =>
    intro i
    simp only [detect_hitGo, firstHitIdxGo]
    by_cases hm : hitMatch (lineAt cs i) tag_index = true
    · simp [hm, hitLine, hitStats]
    · simp [hm, ih (i + 1)]

lemma detect_hit_eq (cs : CacheSet) (tag_index lines_no block_bits : Nat)
    (Op : Char) (ts : Nat) (st : Stats) :
    detect_hit cs tag_index lines_no block_bits Op ts st =
      (firstHitIdx cs tag_index lines_no).map (fun j =>
        ({ cs with lines := cs.lines.set j (hitLine (lineAt cs j) Op ts) },
         ts + 1, hitStats st (lineAt cs j) Op block_bits)) :=
  detect_hitGo_eq cs tag_index block_bits Op ts st lines_no 0

/-! ### The LRU scan picks the earliest minimum -/

lemma line2replaceGo_spec (cs : CacheSet) :
    ∀ fuel i idx m, idx < i → m = (lineAt cs idx).lru →
      (∀ k, k < i → m ≤ (lineAt cs k).lru) →
      (∀ k, k < idx → m < (lineAt cs k).lru) →
      line2replaceGo cs i fuel idx m < i + fuel ∧
        (∀ k, k < i + fuel →
          (lineAt cs (line2replaceGo cs i fuel idx m)).lru ≤ (lineAt cs k).lru) ∧
        (∀ k, k < line2replaceGo cs i fuel idx m →
          (lineAt cs (line2replaceGo cs i fuel idx m)).lru < (lineAt cs k).lru) := by
  intro fuel
  induction fuel with
  | zero =>
    intro i idx m h1 h2 h3 h4
    simp only [line2replaceGo]
    subst h2
    exact ⟨by omega, fun k hk => h3 k hk, h4⟩
  | succ fuel' ih =>
    intro i idx m h1 h2 h3 h4
    simp only [line2replaceGo]
    by_cases hg : m > (lineAt cs i).lru
    · simp only [hg, if_pos]
      have := ih (i + 1) i (lineAt cs i).lru (by omega) rfl
        (fun k hk => by
          by_cases hki : k = i
          · subst hki; exact le_refl _
          · exact le_of_lt (lt_of_lt_of_le hg (h3 k (by omega))))
        (fun k hk => lt_of_lt_of_le hg (h3 k (by omega)))
      refine ⟨by omega, fun k hk => this.2.1 k (by omega), this.2.2⟩
    · simp only [hg, if_neg, not_false_iff]
      have := ih (i + 1) idx m (by omega) h2
        (fun k hk => by
          by_cases hki : k = i
          · subst hki; omega
          · exact h3 k (by omega))
        h4
      refine ⟨by omega, fun k hk => this.2.1 k (by omega), this.2.2⟩

/-- `line2replace` returns an in-range index holding the minimum `lru` of the
first `lines_no` lines, and every line before it has a strictly larger
`lru` (the earliest minimum wins the tie). -/
lemma line2replace_spec (cs : CacheSet) (lines_no : Nat) (h : 1 ≤ lines_no) :
    line2replace cs lines_no < lines_no ∧
      (∀ k, k < lines_no →
        (lineAt cs (line2replace cs lines_no)).lru ≤ (lineAt cs k).lru) ∧
      (∀ k, k < line2replace cs lines_no →
        (lineAt cs (line2replace cs lines_no)).lru < (lineAt cs k).lru) := by
  obtain ⟨fuel, rfl⟩ : ∃ fuel, lines_no = fuel + 1 := ⟨lines_no - 1, by omega⟩
  have hstep : line2replace cs (fuel + 1) =
      line2replaceGo cs 1 fuel 0 (lineAt cs 0).lru := by
    simp [line2replace, line2replaceGo]
  rw [hstep]
  have := line2replaceGo_spec cs fuel 1 0 (lineAt cs 0).lru (by omega) rfl
    (fun k hk => by
      have : k = 0 := by omega
      subst this; exact le_refl _)
    (fun k hk => by omega)
  exact ⟨by omega, fun k hk => this.2.1 k (by omega), this.2.2⟩

/-! ### Closed forms for the three branches of `update_cache` -/

/-- The set `update_cache` operates on. -/
def targetSet (st : SimState) (address set_bits block_bits : Nat) : CacheSet :=
  st.sets.getD (set_index_of address set_bits block_bits) default

/-- The line written by a fill (`update_cacheline`'s result before the extra
eviction-path restamp). -/
def newLine (tag_index : Nat) (Op : Char) (ts : Nat) : Cacheline :=
  (update_cacheline tag_index Op ts).1

/-- The line finally stored by the eviction path: the fill from
`update_cacheline` restamped with the second clock value `ts + 1`. -/
def evictLine (tag_index : Nat) (Op : Char) (ts : Nat) : Cacheline :=
  { newLine tag_index Op ts with lru := ts + 1 }

/-- Net statistics change of a cold miss: `misses` up by one, and the block
size added to `dirty_bytes` when the fill is a store. -/
def coldStats (st : Stats) (Op : Char) (block_bits : Nat) : Stats :=
  { st with misses := st.misses + 1,
            dirty_bytes :=
              st.dirty_bytes + (if Op == 'S' then 2 ^ block_bits else 0) }

/-- Net statistics change of an eviction miss: `misses` and `evictions` up by
one, the victim's block moved out of `dirty_bytes` into `dirty_evictions`
when the victim was dirty, and the block size re-added to `dirty_bytes` when
the new fill is a store. -/
def evictStats (st : Stats) (victimDirty : Bool) (Op : Char)
    (block_bits : Nat) : Stats :=
  { st with misses := st.misses + 1,
            evictions := st.evictions + 1,
            dirty_evictions :=
              st.dirty_evictions + (if victimDirty then 2 ^ block_bits else 0),
            dirty_bytes :=
              (st.dirty_bytes - (if victimDirty then 2 ^ block_bits else 0)) +
                (if Op == 'S' then 2 ^ block_bits else 0) }

lemma update_cache_hit (st : SimState) (a s b E : Nat) (Op : Char) (j : Nat)
    (h : firstHitIdx (targetSet st a s b) (tag_index_of a s b) E = some j) :
    update_cache st a s b E Op =
      { sets := st.sets.set (set_index_of a s b)
          { targetSet st a s b with
            lines := (targetSet st a s b).lines.set j
              (hitLine (lineAt (targetSet st a s b) j) Op st.timeStamp) },
        timeStamp := st.timeStamp + 1,
        stats := hitStats st.stats (lineAt (targetSet st a s b) j) Op b } := by
  simp only [targetSet] at h ⊢
  unfold update_cache
  dsimp only
  rw [detect_hit_eq, h]
  rfl

lemma update_cache_cold (st : SimState) (a s b E : Nat) (Op : Char)
    (h : firstHitIdx (targetSet st a s b) (tag_index_of a s b) E = none)
    (hc : (targetSet st a s b).line_index < E) :
    update_cache st a s b E Op =
      { sets := st.sets.set (set_index_of a s b)
          { lines := (targetSet st a s b).lines.set
              (targetSet st a s b).line_index
              (newLine (tag_index_of a s b) Op st.timeStamp),
            line_index := (targetSet st a s b).line_index + 1 },
        timeStamp := st.timeStamp + 1,
        stats := coldStats st.stats Op b } := by
  simp only [targetSet] at h hc ⊢
  unfold update_cache
  dsimp only
  rw [detect_hit_eq, h]
  simp only [Option.map_none', if_pos hc, detect_coldmiss, update_cacheline,
    newLine, coldStats]
  cases hS : (Op == 'S') <;> simp [hS]

lemma update_cache_evict (st : SimState) (a s b E : Nat) (Op : Char)
    (h : firstHitIdx (targetSet st a s b) (tag_index_of a s b) E = none)
    (hc : ¬ (targetSet st a s b).line_index < E) :
    update_cache st a s b E Op =
      { sets := st.sets.set (set_index_of a s b)
          { targetSet st a s b with
            lines := (targetSet st a s b).lines.set
              (line2replace (targetSet st a s b) E)
              (evictLine (tag_index_of a s b) Op st.timeStamp) },
        timeStamp := st.timeStamp + 2,
        stats := evictStats st.stats
          (lineAt (targetSet st a s b)
            (line2replace (targetSet st a s b) E)).dirty Op b } := by
  simp only [targetSet] at h hc ⊢
  unfold update_cache
  dsimp only
  rw [detect_hit_eq, h]
  simp only [Option.map_none', if_neg hc, detect_othermiss, update_cacheline,
    evictLine, newLine, evictStats]
  cases hS : (Op == 'S') <;>
    cases hvd : (lineAt (st.sets.getD (set_index_of a s b) default)
      (line2replace (st.sets.getD (set_index_of a s b) default) E)).dirty <;>
    simp [hS, hvd]

/-! ### Address decomposition facts -/

/-- The all-ones mask `((unsigned long)-1) >> (64 - s)` equals `2^s - 1` for
`1 ≤ s ≤ 64`. -/
lemma mask_eq (s : Nat) (h1 : 1 ≤ s) (h2 : s ≤ 64) :
    (2 ^ 64 - 1) >>> (64 - s) = 2 ^ s - 1 := by
  rw [Nat.shiftRight_eq_div_pow]
  have hA : 0 < 2 ^ (64 - s) := pow_pos (by norm_num) _
  have hfact : 2 ^ 64 = 2 ^ (64 - s) * 2 ^ s := by
    rw [← pow_add]
    congr 1
    omega
  obtain ⟨B', hB'⟩ : ∃ B', 2 ^ s = B' + 1 :=
    ⟨2 ^ s - 1, by have := pow_pos (show 0 < 2 by norm_num) s; omega⟩
  have hmul : 2 ^ (64 - s) * (B' + 1) = 2 ^ (64 - s) * B' + 2 ^ (64 - s) := by
    ring
  have hkey : 2 ^ 64 - 1 = (2 ^ (64 - s) - 1) + 2 ^ (64 - s) * B' := by
    rw [hfact, hB', hmul]
    omega
  rw [hkey, Nat.add_mul_div_left _ _ hA, Nat.div_eq_of_lt (by omega)]
  omega

/-- The set index computed by `update_cache` is always a legal index into the
`2^s` sets. -/
lemma set_index_lt (a s b : Nat) : set_index_of a s b < 2 ^ s := by
  unfold set_index_of
  by_cases hs : s = 0
  · simp [hs]
  · simp only [hs, if_neg, ite_false]
    have h1 : (a >>> b) &&& ((2 ^ 64 - 1) >>> (64 - s)) ≤
        (2 ^ 64 - 1) >>> (64 - s) := Nat.and_le_right
    have h2 : (2 ^ 64 - 1) >>> (64 - s) < 2 ^ s := by
      rw [Nat.shiftRight_eq_div_pow]
      rw [Nat.div_lt_iff_lt_mul (pow_pos (by norm_num) _)]
      calc 2 ^ 64 - 1 < 2 ^ 64 := by
            have := pow_pos (show 0 < 2 by norm_num) 64
            omega
        _ ≤ 2 ^ (s + (64 - s)) := Nat.pow_le_pow_right (by norm_num) (by omega)
        _ = 2 ^ s * 2 ^ (64 - s) := pow_add 2 s (64 - s)
    omega

/-! ### The invariant holds initially and is preserved -/

lemma simInv_init (s E b : Nat) : SimInv (initCache s E b) s E b := by
  refine ⟨by simp [initCache], ?_, ?_⟩
  · intro k hk
    simp only [initCache] at hk ⊢
    rw [List.length_replicate] at hk
    rw [getD_replicate _ _ _ _ hk]
    refine ⟨by simp, by simp, ?_⟩
    intro i hi
    simp only [lineAt]
    rw [getD_replicate _ _ _ _ hi]
    simp
  · simp only [initCache, cacheDirtyCount]
    have hset : setDirtyCount
        { lines := List.replicate E
            { valid := false, dirty := false, tag := 0, lru := 0 },
          line_index := 0 } = 0 := by
      simp only [setDirtyCount]
      rw [List.countP_eq_zero]
      intro l hl
      rw [List.eq_of_mem_replicate hl]
      simp [dirtyLine]
    rw [List.map_replicate, hset]
    simp

lemma hitLine_valid (line : Cacheline) (Op : Char) (ts : Nat) :
    (hitLine line Op ts).valid = line.valid := by
  unfold hitLine; split <;> rfl

lemma hitLine_tag (line : Cacheline) (Op : Char) (ts : Nat) :
    (hitLine line Op ts).tag = line.tag := by
  unfold hitLine; split <;> rfl

lemma hitLine_lru (line : Cacheline) (Op : Char) (ts : Nat) :
    (hitLine line Op ts).lru = ts := by
  unfold hitLine; split <;> rfl

lemma hitLine_dirty (line : Cacheline) (Op : Char) (ts : Nat) :
    (hitLine line Op ts).dirty = (line.dirty || (Op == 'S')) := by
  unfold hitLine
  cases hS : (Op == 'S') <;> cases hd : line.dirty <;> simp [hS, hd]

lemma dirtyLine_of_valid (line : Cacheline) (hv : line.valid = true) :
    dirtyLine line = line.dirty := by
  simp [dirtyLine, hv]

lemma dirtyLine_of_invalid (line : Cacheline) (hv : line.valid = false) :
    dirtyLine line = false := by
  simp [dirtyLine, hv]

lemma dirtyLine_hitLine (line : Cacheline) (Op : Char) (ts : Nat)
    (hv : line.valid = true) :
    dirtyLine (hitLine line Op ts) = (line.dirty || (Op == 'S')) := by
  simp [dirtyLine, hitLine_valid, hitLine_dirty, hv]

lemma newLine_eq (tag_index : Nat) (Op : Char) (ts : Nat) :
    newLine tag_index Op ts =
      { valid := true, dirty := Op == 'S', tag := tag_index, lru := ts } := rfl

lemma dirtyLine_newLine (tag_index : Nat) (Op : Char) (ts : Nat) :
    dirtyLine (newLine tag_index Op ts) = (Op == 'S') := by
  simp [dirtyLine, newLine_eq]

lemma hitMatch_valid (line : Cacheline) (tag_index : Nat)
    (h : hitMatch line tag_index = true) : line.valid = true := by
  simp [hitMatch, Bool.and_eq_true] at h
  exact h.1

lemma hitMatch_tag (line : Cacheline) (tag_index : Nat)
    (h : hitMatch line tag_index = true) : line.tag = tag_index := by
  simp [hitMatch, Bool.and_eq_true, beq_iff_eq] at h
  exact h.2

/-- Replacing one set of a well-formed cache preserves `SimInv`, provided the
new set is well-formed and the new statistics respect the dirty count change
of the replaced set (stated additively to stay in `Nat`). -/
lemma simInv_set (st : SimState) (s E b idx : Nat) (cs' : CacheSet)
    (ts' : Nat) (stats' : Stats)
    (hlen : st.sets.length = 2 ^ s)
    (hidxlt : idx < st.sets.length)
    (hwf : ∀ k, k < st.sets.length → SetWf (st.sets.getD k default) E)
    (hcs' : SetWf cs' E)
    (hdb : stats'.dirty_bytes + setDirtyCount (st.sets.getD idx default) * 2 ^ b
         = cacheDirtyCount st.sets * 2 ^ b + setDirtyCount cs' * 2 ^ b) :
    SimInv { sets := st.sets.set idx cs', timeStamp := ts', stats := stats' }
      s E b := by
  refine ⟨by simpa using hlen, ?_, ?_⟩
  · intro k hk
    rw [List.length_set] at hk
    show SetWf ((st.sets.set idx cs').getD k default) E
    by_cases hkidx : k = idx
    · subst hkidx
      rw [getD_set_self _ _ _ _ hidxlt]
      exact hcs'
    · rw [getD_set_ne _ _ _ _ _ hkidx]
      exact hwf k hk
  · show stats'.dirty_bytes = cacheDirtyCount (st.sets.set idx cs') * 2 ^ b
    have hsum := sum_map_set setDirtyCount st.sets idx cs' default hidxlt
    have hsum' : cacheDirtyCount (st.sets.set idx cs') * 2 ^ b +
        setDirtyCount (st.sets.getD idx default) * 2 ^ b =
        cacheDirtyCount st.sets * 2 ^ b + setDirtyCount cs' * 2 ^ b := by
      rw [cacheDirtyCount, cacheDirtyCount, ← Nat.add_mul, ← Nat.add_mul, hsum]
    exact Nat.add_right_cancel (hdb.trans hsum'.symm)

/-- Overwriting a valid line with a valid line keeps a set well-formed. -/
lemma setWf_overwrite (cs : CacheSet) (E j : Nat) (x : Cacheline)
    (hwf : SetWf cs E) (hj : j < E) (hxv : x.valid = true)
    (hjv : (lineAt cs j).valid = true) :
    SetWf { cs with lines := cs.lines.set j x } E := by
  obtain ⟨hlen, hcur, hval⟩ := hwf
  refine ⟨by simpa using hlen, hcur, ?_⟩
  intro i hi
  show ((cs.lines.set j x).getD i default).valid = true ↔ i < cs.line_index
  by_cases hij : i = j
  · subst hij
    rw [getD_set_self _ _ _ _ (by rw [hlen]; exact hj), hxv]
    have := (hval i hi).mp hjv
    simp [this]
  · rw [getD_set_ne _ _ _ _ _ hij]
    exact hval i hi

/-- Filling the line at the fill cursor with a valid line and advancing the
cursor keeps a set well-formed. -/
lemma setWf_fill (cs : CacheSet) (E : Nat) (x : Cacheline)
    (hwf : SetWf cs E) (hc : cs.line_index < E) (hxv : x.valid = true) :
    SetWf { lines := cs.lines.set cs.line_index x,
            line_index := cs.line_index + 1 } E := by
  obtain ⟨hlen, hcur, hval⟩ := hwf
  refine ⟨by simpa using hlen, ?_, ?_⟩
  · show cs.line_index + 1 ≤ E
    omega
  · intro i hi
    show ((cs.lines.set cs.line_index x).getD i default).valid = true ↔
      i < cs.line_index + 1
    by_cases hij : i = cs.line_index
    · subst hij
      rw [getD_set_self _ _ _ _ (by rw [hlen]; exact hc), hxv]
      simp
    · rw [getD_set_ne _ _ _ _ _ hij]
      rw [show cs.lines.getD i default = lineAt cs i from rfl, hval i hi]
      omega

/-- The invariant is preserved by every single `access()` (one `update_cache`
call), for any operation and address, as long as the configuration has at
least one line per set. -/
theorem simInv_step (st : SimState) (a s b E : Nat) (Op : Char)
    (hE : 1 ≤ E) (hinv : SimInv st s E b) :
    SimInv (update_cache st a s b E Op) s E b := by
  obtain ⟨hlen, hwf, hdb⟩ := hinv
  have hidxlt : set_index_of a s b < st.sets.length := by
    rw [hlen]; exact set_index_lt a s b
  obtain ⟨hlenE, hcur, hval⟩ := hwf (set_index_of a s b) hidxlt
  have htgt : targetSet st a s b = st.sets.getD (set_index_of a s b) default :=
    rfl
  have hwfT : SetWf (targetSet st a s b) E := by
    rw [htgt]; exact ⟨hlenE, hcur, hval⟩
  cases hfh : firstHitIdx (targetSet st a s b) (tag_index_of a s b) E with
  | some j =>
    rw [update_cache_hit st a s b E Op j hfh]
    have hspec := firstHitIdxGo_some (targetSet st a s b) (tag_index_of a s b)
      E 0 j hfh
    have hjE : j < E := by omega
    have hjlen : j < (targetSet st a s b).lines.length := by
      rw [htgt, hlenE]; exact hjE
    have hv : (lineAt (targetSet st a s b) j).valid = true :=
      hitMatch_valid _ _ hspec.2.2.1
    refine simInv_set st s E b _ _ _ _ hlen hidxlt hwf ?_ ?_
    · exact setWf_overwrite _ _ _ _ hwfT hjE
        (by rw [hitLine_valid]; exact hv) hv
    · rw [← htgt]
      have hcnt := countP_set dirtyLine (targetSet st a s b).lines j
        (hitLine (lineAt (targetSet st a s b) j) Op st.timeStamp) default hjlen
      have hgd : (targetSet st a s b).lines.getD j default =
          lineAt (targetSet st a s b) j := rfl
      rw [hgd, dirtyLine_of_valid _ hv, dirtyLine_hitLine _ _ _ hv] at hcnt
      show (hitStats st.stats (lineAt (targetSet st a s b) j) Op b).dirty_bytes
          + setDirtyCount (targetSet st a s b) * 2 ^ b = _
      simp only [hitStats, setDirtyCount]
      cases hS : (Op == 'S') <;>
        cases hd : (lineAt (targetSet st a s b) j).dirty <;>
        simp only [hS, hd, Bool.and_true, Bool.and_false, Bool.true_and,
          Bool.false_and, Bool.not_true, Bool.not_false, Bool.false_or,
          Bool.or_false, Bool.true_or, Bool.or_true, Bool.and_self,
          Bool.false_eq_true, Bool.true_eq_false, eq_self_iff_true,
          if_true, if_false, ite_true, ite_false] at hcnt ⊢
      · have hnc : ((targetSet st a s b).lines.set j
            (hitLine (lineAt (targetSet st a s b) j) Op st.timeStamp)).countP
            dirtyLine = (targetSet st a s b).lines.countP dirtyLine := by
          omega
        rw [hdb, hnc]
      · have hnc : ((targetSet st a s b).lines.set j
            (hitLine (lineAt (targetSet st a s b) j) Op st.timeStamp)).countP
            dirtyLine = (targetSet st a s b).lines.countP dirtyLine := by
          omega
        rw [hdb, hnc]
      · -- store to a clean line: the dirty count of the set goes up by one
        have hnc : ((targetSet st a s b).lines.set j
            (hitLine (lineAt (targetSet st a s b) j) Op st.timeStamp)).countP
            dirtyLine = (targetSet st a s b).lines.countP dirtyLine + 1 := by
          omega
        rw [hdb, hnc, Nat.succ_mul]
        ring
      · have hnc : ((targetSet st a s b).lines.set j
            (hitLine (lineAt (targetSet st a s b) j) Op st.timeStamp)).countP
            dirtyLine = (targetSet st a s b).lines.countP dirtyLine := by
          omega
        rw [hdb, hnc]
  | none =>
    by_cases hc : (targetSet st a s b).line_index < E
    · rw [update_cache_cold st a s b E Op hfh hc]
      have hclen : (targetSet st a s b).line_index <
          (targetSet st a s b).lines.length := by
        rw [htgt, hlenE]; exact hc
      have hov : (lineAt (targetSet st a s b)
          (targetSet st a s b).line_index).valid = false := by
        rw [htgt]
        cases hvv : (lineAt (st.sets.getD (set_index_of a s b) default)
            (st.sets.getD (set_index_of a s b) default).line_index).valid
        · rfl
        · have := (hval _ (htgt ▸ hc)).mp hvv
          omega
      refine simInv_set st s E b _ _ _ _ hlen hidxlt hwf ?_ ?_
      · exact setWf_fill _ _ _ hwfT hc rfl
      · rw [← htgt]
        have hcnt := countP_set dirtyLine (targetSet st a s b).lines
          (targetSet st a s b).line_index
          (newLine (tag_index_of a s b) Op st.timeStamp) default hclen
        have hgd : (targetSet st a s b).lines.getD
            (targetSet st a s b).line_index default =
            lineAt (targetSet st a s b) (targetSet st a s b).line_index := rfl
        rw [hgd, dirtyLine_of_invalid _ hov, dirtyLine_newLine] at hcnt
        show (coldStats st.stats Op b).dirty_bytes
            + setDirtyCount (targetSet st a s b) * 2 ^ b = _
        simp only [coldStats, setDirtyCount]
        cases hS : (Op == 'S') <;>
          simp only [hS, Bool.false_eq_true, Bool.true_eq_false,
            eq_self_iff_true, if_true, if_false, ite_true,
            ite_false] at hcnt ⊢
        · have hnc : ((targetSet st a s b).lines.set
              (targetSet st a s b).line_index
              (newLine (tag_index_of a s b) Op st.timeStamp)).countP
              dirtyLine = (targetSet st a s b).lines.countP dirtyLine := by
            omega
          rw [hdb, hnc]
          omega
        · have hnc : ((targetSet st a s b).lines.set
              (targetSet st a s b).line_index
              (newLine (tag_index_of a s b) Op st.timeStamp)).countP
              dirtyLine = (targetSet st a s b).lines.countP dirtyLine + 1 := by
            omega
          rw [hdb, hnc, Nat.succ_mul]
          ring
    · rw [update_cache_evict st a s b E Op hfh hc]
      have hcurE : (targetSet st a s b).line_index = E := by
        rw [htgt]
        rw [htgt] at hc
        omega
      have hj := (line2replace_spec (targetSet st a s b) E hE).1
      have hjlen : line2replace (targetSet st a s b) E <
          (targetSet st a s b).lines.length := by
        rw [htgt, hlenE]; exact hj
      have hvv : (lineAt (targetSet st a s b)
          (line2replace (targetSet st a s b) E)).valid = true := by
        rw [htgt]
        refine (hval _ hj).mpr ?_
        rw [← htgt, hcurE]
        exact hj
      refine simInv_set st s E b _ _ _ _ hlen hidxlt hwf ?_ ?_
      · exact setWf_overwrite _ _ _ _ hwfT hj rfl hvv
      · rw [← htgt]
        have hcnt := countP_set dirtyLine (targetSet st a s b).lines
          (line2replace (targetSet st a s b) E)
          (evictLine (tag_index_of a s b) Op st.timeStamp) default hjlen
        have hgd : (targetSet st a s b).lines.getD
            (line2replace (targetSet st a s b) E) default =
            lineAt (targetSet st a s b) (line2replace (targetSet st a s b) E) :=
          rfl
        have hdlnew : dirtyLine (evictLine (tag_index_of a s b) Op
            st.timeStamp) = (Op == 'S') := by
          simp [dirtyLine, evictLine, newLine_eq]
        rw [hgd, dirtyLine_of_valid _ hvv, hdlnew] at hcnt
        have hocT : setDirtyCount (targetSet st a s b) ≤
            cacheDirtyCount st.sets := by
          rw [htgt]
          exact le_sum_map setDirtyCount st.sets (set_index_of a s b) default
            hidxlt
        show (evictStats st.stats (lineAt (targetSet st a s b)
              (line2replace (targetSet st a s b) E)).dirty Op b).dirty_bytes
            + setDirtyCount (targetSet st a s b) * 2 ^ b = _
        simp only [evictStats, setDirtyCount]
        cases hS : (Op == 'S') <;>
          cases hvd : (lineAt (targetSet st a s b)
            (line2replace (targetSet st a s b) E)).dirty <;>
          simp only [hS, hvd, Bool.false_eq_true, Bool.true_eq_false,
            eq_self_iff_true, if_true, if_false, ite_true,
            ite_false] at hcnt ⊢
        · -- clean victim, load fill: nothing changes
          have hnc : ((targetSet st a s b).lines.set
              (line2replace (targetSet st a s b) E)
              (evictLine (tag_index_of a s b) Op st.timeStamp)).countP
              dirtyLine =
              (targetSet st a s b).lines.countP dirtyLine := by
            omega
          rw [hdb, hnc]
          omega
        · -- dirty victim, load fill: the dirty count goes down by one
          have hoc1 : 1 ≤ (targetSet st a s b).lines.countP dirtyLine :=
            countP_pos_getD dirtyLine _ _ default hjlen
              (by rw [hgd, dirtyLine_of_valid _ hvv]; exact hvd)
          have hT1 : 1 ≤ cacheDirtyCount st.sets := by
            have := hocT
            rw [setDirtyCount] at this
            omega
          obtain ⟨T', hT'⟩ : ∃ T', cacheDirtyCount st.sets = T' + 1 :=
            ⟨cacheDirtyCount st.sets - 1, by omega⟩
          have hnc : ((targetSet st a s b).lines.set
              (line2replace (targetSet st a s b) E)
              (evictLine (tag_index_of a s b) Op st.timeStamp)).countP
              dirtyLine + 1 =
              (targetSet st a s b).lines.countP dirtyLine := by
            omega
          rw [hdb, hT', Nat.succ_mul, Nat.add_sub_cancel, ← hnc,
            Nat.succ_mul]
          ring
        · -- clean victim, store fill: the dirty count goes up by one
          have hnc : ((targetSet st a s b).lines.set
              (line2replace (targetSet st a s b) E)
              (evictLine (tag_index_of a s b) Op st.timeStamp)).countP
              dirtyLine =
              (targetSet st a s b).lines.countP dirtyLine + 1 := by
            omega
          rw [hdb, hnc, Nat.succ_mul]
          omega
        · -- dirty victim, store fill: down one then up one
          have hoc1 : 1 ≤ (targetSet st a s b).lines.countP dirtyLine :=
            countP_pos_getD dirtyLine _ _ default hjlen
              (by rw [hgd, dirtyLine_of_valid _ hvv]; exact hvd)
          have hT1 : 1 ≤ cacheDirtyCount st.sets := by
            have := hocT
            rw [setDirtyCount] at this
            omega
          obtain ⟨T', hT'⟩ : ∃ T', cacheDirtyCount st.sets = T' + 1 :=
            ⟨cacheDirtyCount st.sets - 1, by omega⟩
          have hnc : ((targetSet st a s b).lines.set
              (line2replace (targetSet st a s b) E)
              (evictLine (tag_index_of a s b) Op st.timeStamp)).countP
              dirtyLine =
              (targetSet st a s b).lines.countP dirtyLine := by
            omega
          rw [hdb, hT', Nat.succ_mul, Nat.add_sub_cancel, hnc]

/-! ### Run-level lemmas -/

lemma foldl_inv (s b E : Nat) (hE : 1 ≤ E) :
    ∀ (t : List (Char × Nat)) (st : SimState), SimInv st s E b →
      SimInv (t.foldl (fun st r => update_cache st r.2 s b E r.1) st) s E b := by
  intro t
  induction t with
  | nil => intro st h; exact h
  | cons r t ih =>
    intro st h
    exact ih _ (simInv_step st r.2 s b E r.1 hE h)

/-- Every state reached by replaying a trace from the initial cache satisfies
the invariant. -/
lemma runTrace_inv (s b E : Nat) (hE : 1 ≤ E) (t : List (Char × Nat)) :
    SimInv (runTrace s b E t) s E b :=
  foldl_inv s b E hE t _ (simInv_init s E b)

lemma runTrace_append (s b E : Nat) (t : List (Char × Nat)) (r : Char × Nat) :
    runTrace s b E (t ++ [r]) =
      update_cache (runTrace s b E t) r.2 s b E r.1 := by
  unfold runTrace
  rw [List.foldl_append]
  rfl

/-- The claim's "sum over all valid-and-dirty lines of the block size". -/
def dirtyByteSum (sets : List CacheSet) (block_bits : Nat) : Nat :=
  (sets.map (fun cs =>
    ((cs.lines.filter dirtyLine).map (fun _ => 2 ^ block_bits)).sum)).sum

lemma filter_const_sum (l : List Cacheline) (B : Nat) :
    ((l.filter dirtyLine).map (fun _ => B)).sum = l.countP dirtyLine * B := by
  induction l with
  | nil => simp
  | cons a t ih =>
    by_cases h : dirtyLine a
    · simp only [List.filter_cons, h, if_true, List.map_cons, List.sum_cons,
        List.countP_cons, ih, ite_true]
      rw [Nat.add_mul]
      omega
    · simp only [List.filter_cons, List.countP_cons, h, ite_false, if_false,
        Nat.add_zero]
      exact ih

lemma dirtyByteSum_eq (sets : List CacheSet) (b : Nat) :
    dirtyByteSum sets b = cacheDirtyCount sets * 2 ^ b := by
  induction sets with
  | nil => simp [dirtyByteSum, cacheDirtyCount]
  | cons cs rest ih =>
    simp only [dirtyByteSum, cacheDirtyCount, List.map_cons,
      List.sum_cons] at ih ⊢
    rw [filter_const_sum, ih, Nat.add_mul]
    simp only [setDirtyCount]

lemma update_cache_hits_misses (st : SimState) (a s b E : Nat) (Op : Char) :
    ((update_cache st a s b E Op).stats.hits = st.stats.hits + 1 ∧
     (update_cache st a s b E Op).stats.misses = st.stats.misses) ∨
    ((update_cache st a s b E Op).stats.hits = st.stats.hits ∧
     (update_cache st a s b E Op).stats.misses = st.stats.misses + 1) := by
  cases hfh : firstHitIdx (targetSet st a s b) (tag_index_of a s b) E with
  | some j =>
    left
    rw [update_cache_hit st a s b E Op j hfh]
    exact ⟨rfl, rfl⟩
  | none =>
    right
    by_cases hc : (targetSet st a s b).line_index < E
    · rw [update_cache_cold st a s b E Op hfh hc]
      exact ⟨rfl, rfl⟩
    · rw [update_cache_evict st a s b E Op hfh hc]
      exact ⟨rfl, rfl⟩

lemma foldl_hits_misses (s b E : Nat) :
    ∀ (t : List (Char × Nat)) (st : SimState),
      (t.foldl (fun st r => update_cache st r.2 s b E r.1) st).stats.hits +
        (t.foldl (fun st r => update_cache st r.2 s b E r.1) st).stats.misses =
        st.stats.hits + st.stats.misses + t.length := by
  intro t
  induction t with
  | nil => intro st; simp
  | cons r t ih =>
    intro st
    rw [List.foldl_cons]
    have hrec := ih (update_cache st r.2 s b E r.1)
    have hstep := update_cache_hits_misses st r.2 s b E r.1
    rcases hstep with ⟨h1, h2⟩ | ⟨h1, h2⟩ <;>
      rw [hrec, h1, h2] <;> simp <;> omega

/-! ### More helper lemmas: out-of-range writes, building a first hit -/

lemma set_out {α : Type} (l : List α) (j : Nat) (x : α)
    (h : l.length ≤ j) : l.set j x = l := by
  induction l generalizing j with
  | nil => simp
  | cons a t ih =>
    cases j with
    | zero => simp at h
    | succ j' =>
      simp only [List.set]
      rw [ih j' (by simpa using h)]

lemma getD_out {α : Type} (l : List α) (i : Nat) (d : α)
    (h : l.length ≤ i) : l.getD i d = d := by
  induction l generalizing i with
  | nil => simp
  | cons a t ih =>
    cases i with
    | zero => simp at h
    | succ i' =>
      simp only [List.getD_cons_succ]
      exact ih i' (by simpa using h)

lemma firstHitIdxGo_eq_some (cs : CacheSet) (tag_index : Nat) :
    ∀ fuel i j, i ≤ j → j < i + fuel →
      hitMatch (lineAt cs j) tag_index = true →
      (∀ k, i ≤ k → k < j → hitMatch (lineAt cs k) tag_index = false) →
      firstHitIdxGo cs tag_index i fuel = some j := by
  intro fuel
  induction fuel with
  | zero => intro i j h1 h2; omega
  | succ fuel' ih =>
    intro i j h1 h2 h3 h4
    simp only [firstHitIdxGo]
    by_cases hij : i = j
    · subst hij
      simp [h3]
    · have hmi : hitMatch (lineAt cs i) tag_index = false :=
        h4 i (le_refl i) (by omega)
      simp only [hmi, Bool.false_eq_true, if_false, ite_false]
      exact ih (i + 1) j (by omega) (by omega) h3
        (fun k hk1 hk2 => h4 k (by omega) hk2)

/-- After a store access, the target set's first matching line for the same
tag exists and is dirty (the store either dirtied the hit line, or filled a
new dirty line that is the unique match). -/
lemma store_first_match (st : SimState) (a s b E : Nat)
    (hinv : SimInv st s E b) (hE : 1 ≤ E) :
    ∃ j, firstHitIdx (targetSet (update_cache st a s b E 'S') a s b)
        (tag_index_of a s b) E = some j ∧
      (lineAt (targetSet (update_cache st a s b E 'S') a s b) j).dirty =
        true := by
  obtain ⟨hlen, hwf, -⟩ := hinv
  have hidxlt : set_index_of a s b < st.sets.length := by
    rw [hlen]; exact set_index_lt a s b
  obtain ⟨hlenE, hcur, hval⟩ := hwf (set_index_of a s b) hidxlt
  have htgt : targetSet st a s b = st.sets.getD (set_index_of a s b) default :=
    rfl
  cases hfh : firstHitIdx (targetSet st a s b) (tag_index_of a s b) E with
  | some j =>
    rw [update_cache_hit st a s b E 'S' j hfh]
    have hspec := firstHitIdxGo_some (targetSet st a s b) (tag_index_of a s b)
      E 0 j hfh
    have hjE : j < E := by omega
    have hjlen : j < (targetSet st a s b).lines.length := by
      rw [htgt, hlenE]; exact hjE
    have hnew : targetSet
        { sets := st.sets.set (set_index_of a s b)
            { targetSet st a s b with
              lines := (targetSet st a s b).lines.set j
                (hitLine (lineAt (targetSet st a s b) j) 'S' st.timeStamp) },
          timeStamp := st.timeStamp + 1,
          stats := hitStats st.stats (lineAt (targetSet st a s b) j) 'S' b }
          a s b =
        { targetSet st a s b with
          lines := (targetSet st a s b).lines.set j
            (hitLine (lineAt (targetSet st a s b) j) 'S' st.timeStamp) } := by
      show (st.sets.set (set_index_of a s b) _).getD (set_index_of a s b)
        default = _
      exact getD_set_self _ _ _ _ hidxlt
    rw [hnew]
    refine ⟨j, ?_, ?_⟩
    · refine firstHitIdxGo_eq_some _ _ E 0 j (by omega) (by omega) ?_ ?_
      · show hitMatch (((targetSet st a s b).lines.set j
          (hitLine (lineAt (targetSet st a s b) j) 'S' st.timeStamp)).getD j
            default) (tag_index_of a s b) = true
        rw [getD_set_self _ _ _ _ hjlen]
        simp [hitMatch, hitLine_valid, hitLine_tag,
          hitMatch_valid _ _ hspec.2.2.1, hitMatch_tag _ _ hspec.2.2.1]
      · intro k hk1 hk2
        show hitMatch (((targetSet st a s b).lines.set j
          (hitLine (lineAt (targetSet st a s b) j) 'S' st.timeStamp)).getD k
            default) (tag_index_of a s b) = false
        rw [getD_set_ne _ _ _ _ _ (by omega)]
        exact hspec.2.2.2 k hk1 hk2
    · show (((targetSet st a s b).lines.set j
        (hitLine (lineAt (targetSet st a s b) j) 'S' st.timeStamp)).getD j
          default).dirty = true
      rw [getD_set_self _ _ _ _ hjlen, hitLine_dirty]
      simp
  | none =>
    have hmiss : ∀ k, k < E →
        hitMatch (lineAt (targetSet st a s b) k) (tag_index_of a s b) =
          false := by
      intro k hk
      have := (firstHitIdxGo_none (targetSet st a s b) (tag_index_of a s b)
        E 0).mp hfh
      exact this k (by omega) (by omega)
    by_cases hc : (targetSet st a s b).line_index < E
    · rw [update_cache_cold st a s b E 'S' hfh hc]
      have hclen : (targetSet st a s b).line_index <
          (targetSet st a s b).lines.length := by
        rw [htgt, hlenE]; exact hc
      have hnew : targetSet
          { sets := st.sets.set (set_index_of a s b)
              { lines := (targetSet st a s b).lines.set
                  (targetSet st a s b).line_index
                  (newLine (tag_index_of a s b) 'S' st.timeStamp),
                line_index := (targetSet st a s b).line_index + 1 },
            timeStamp := st.timeStamp + 1,
            stats := coldStats st.stats 'S' b } a s b =
          { lines := (targetSet st a s b).lines.set
              (targetSet st a s b).line_index
              (newLine (tag_index_of a s b) 'S' st.timeStamp),
            line_index := (targetSet st a s b).line_index + 1 } := by
        show (st.sets.set (set_index_of a s b) _).getD (set_index_of a s b)
          default = _
        exact getD_set_self _ _ _ _ hidxlt
      rw [hnew]
      refine ⟨(targetSet st a s b).line_index, ?_, ?_⟩
      · refine firstHitIdxGo_eq_some _ _ E 0 _ (by omega) (by omega) ?_ ?_
        · show hitMatch (((targetSet st a s b).lines.set
            (targetSet st a s b).line_index
            (newLine (tag_index_of a s b) 'S' st.timeStamp)).getD
              (targetSet st a s b).line_index default) (tag_index_of a s b) =
            true
          rw [getD_set_self _ _ _ _ hclen]
          simp [hitMatch, newLine_eq]
        · intro k hk1 hk2
          show hitMatch (((targetSet st a s b).lines.set
            (targetSet st a s b).line_index
            (newLine (tag_index_of a s b) 'S' st.timeStamp)).getD k default)
              (tag_index_of a s b) = false
          rw [getD_set_ne _ _ _ _ _ (by omega)]
          exact hmiss k (by omega)
      · show (((targetSet st a s b).lines.set
          (targetSet st a s b).line_index
          (newLine (tag_index_of a s b) 'S' st.timeStamp)).getD
            (targetSet st a s b).line_index default).dirty = true
        rw [getD_set_self _ _ _ _ hclen]
        simp [newLine_eq]
    · rw [update_cache_evict st a s b E 'S' hfh hc]
      have hj := (line2replace_spec (targetSet st a s b) E hE).1
      have hjlen : line2replace (targetSet st a s b) E <
          (targetSet st a s b).lines.length := by
        rw [htgt, hlenE]; exact hj
      have hnew : targetSet
          { sets := st.sets.set (set_index_of a s b)
              { targetSet st a s b with
                lines := (targetSet st a s b).lines.set
                  (line2replace (targetSet st a s b) E)
                  (evictLine (tag_index_of a s b) 'S' st.timeStamp) },
            timeStamp := st.timeStamp + 2,
            stats := evictStats st.stats
              (lineAt (targetSet st a s b)
                (line2replace (targetSet st a s b) E)).dirty 'S' b } a s b =
          { targetSet st a s b with
            lines := (targetSet st a s b).lines.set
              (line2replace (targetSet st a s b) E)
              (evictLine (tag_index_of a s b) 'S' st.timeStamp) } := by
        show (st.sets.set (set_index_of a s b) _).getD (set_index_of a s b)
          default = _
        exact getD_set_self _ _ _ _ hidxlt
      rw [hnew]
      refine ⟨line2replace (targetSet st a s b) E, ?_, ?_⟩
      · refine firstHitIdxGo_eq_some _ _ E 0 _ (by omega) (by omega) ?_ ?_
        · show hitMatch (((targetSet st a s b).lines.set
            (line2replace (targetSet st a s b) E)
            (evictLine (tag_index_of a s b) 'S' st.timeStamp)).getD
              (line2replace (targetSet st a s b) E) default)
              (tag_index_of a s b) = true
          rw [getD_set_self _ _ _ _ hjlen]
          simp [hitMatch, evictLine, newLine_eq]
        · intro k hk1 hk2
          show hitMatch (((targetSet st a s b).lines.set
            (line2replace (targetSet st a s b) E)
            (evictLine (tag_index_of a s b) 'S' st.timeStamp)).getD k default)
              (tag_index_of a s b) = false
          rw [getD_set_ne _ _ _ _ _ (by omega)]
          exact hmiss k (by omega)
      · show (((targetSet st a s b).lines.set
          (line2replace (targetSet st a s b) E)
          (evictLine (tag_index_of a s b) 'S' st.timeStamp)).getD
            (line2replace (targetSet st a s b) E) default).dirty = true
        rw [getD_set_self _ _ _ _ hjlen]
        simp [evictLine, newLine_eq]

/-! ### Step lemmas on cursors, validity and evictions -/

lemma getD_set_cursor_mono (sets : List CacheSet) (idx : Nat) (cs' : CacheSet)
    (h : (sets.getD idx default).line_index ≤ cs'.line_index) (k : Nat) :
    (sets.getD k default).line_index ≤
      ((sets.set idx cs').getD k default).line_index := by
  by_cases hk : k = idx
  · subst hk
    by_cases hin : k < sets.length
    · rw [getD_set_self _ _ _ _ hin]
      exact h
    · rw [set_out _ _ _ (by omega)]
  · rw [getD_set_ne _ _ _ _ _ hk]

/-- The fill cursor of every set is non-decreasing across one access. -/
lemma update_cache_cursor_mono (st : SimState) (a s b E : Nat) (Op : Char)
    (k : Nat) :
    (st.sets.getD k default).line_index ≤
      ((update_cache st a s b E Op).sets.getD k default).line_index := by
  cases hfh : firstHitIdx (targetSet st a s b) (tag_index_of a s b) E with
  | some j =>
    rw [update_cache_hit st a s b E Op j hfh]
    refine getD_set_cursor_mono st.sets (set_index_of a s b) _ ?_ k
    exact le_refl _
  | none =>
    by_cases hc : (targetSet st a s b).line_index < E
    · rw [update_cache_cold st a s b E Op hfh hc]
      refine getD_set_cursor_mono st.sets (set_index_of a s b) _ ?_ k
      exact Nat.le_succ _
    · rw [update_cache_evict st a s b E Op hfh hc]
      refine getD_set_cursor_mono st.sets (set_index_of a s b) _ ?_ k
      exact le_refl _

/-- In every reachable state the fill cursor of every set is at most `E`. -/
lemma runTrace_cursor_le (s b E : Nat) (hE : 1 ≤ E) (t : List (Char × Nat))
    (k : Nat) : ((runTrace s b E t).sets.getD k default).line_index ≤ E := by
  by_cases hk : k < (runTrace s b E t).sets.length
  · exact ((runTrace_inv s b E hE t).2.1 k hk).2.1
  · rw [getD_out _ _ _ (by omega)]
    exact Nat.zero_le E

lemma set_lines_valid_mono (lines : List Cacheline) (j : Nat) (x : Cacheline)
    (hx : x.valid = true ∨ x.valid = (lines.getD j default).valid) (i : Nat)
    (hv : (lines.getD i default).valid = true) :
    ((lines.set j x).getD i default).valid = true := by
  by_cases hij : i = j
  · subst hij
    by_cases hin : i < lines.length
    · rw [getD_set_self _ _ _ _ hin]
      rcases hx with h | h
      · exact h
      · rw [h]
        exact hv
    · rw [set_out _ _ _ (by omega)]
      exact hv
  · rw [getD_set_ne _ _ _ _ _ hij]
    exact hv

lemma getD_set_valid_mono (sets : List CacheSet) (idx : Nat) (cs' : CacheSet)
    (h : ∀ i, (lineAt (sets.getD idx default) i).valid = true →
      (lineAt cs' i).valid = true)
    (k i : Nat) (hv : (lineAt (sets.getD k default) i).valid = true) :
    (lineAt ((sets.set idx cs').getD k default) i).valid = true := by
  by_cases hk : k = idx
  · subst hk
    by_cases hin : k < sets.length
    · rw [getD_set_self _ _ _ _ hin]
      exact h i hv
    · rw [set_out _ _ _ (by omega)]
      exact hv
  · rw [getD_set_ne _ _ _ _ _ hk]
    exact hv

/-- Once a line is valid it stays valid across any access: every line that
an access writes (hit update, cold fill, eviction fill) is itself valid. -/
lemma update_cache_valid_mono (st : SimState) (a s b E : Nat) (Op : Char)
    (k i : Nat)
    (hv : (lineAt (st.sets.getD k default) i).valid = true) :
    (lineAt ((update_cache st a s b E Op).sets.getD k default) i).valid =
      true := by
  cases hfh : firstHitIdx (targetSet st a s b) (tag_index_of a s b) E with
  | some j =>
    rw [update_cache_hit st a s b E Op j hfh]
    refine getD_set_valid_mono st.sets _ _ ?_ k i hv
    intro i' hv'
    exact set_lines_valid_mono _ j _ (Or.inr (hitLine_valid _ _ _)) i' hv'
  | none =>
    by_cases hc : (targetSet st a s b).line_index < E
    · rw [update_cache_cold st a s b E Op hfh hc]
      refine getD_set_valid_mono st.sets _ _ ?_ k i hv
      intro i' hv'
      exact set_lines_valid_mono _ _ _ (Or.inl rfl) i' hv'
    · rw [update_cache_evict st a s b E Op hfh hc]
      refine getD_set_valid_mono st.sets _ _ ?_ k i hv
      intro i' hv'
      exact set_lines_valid_mono _ _ _ (Or.inl rfl) i' hv'

/-- While the target set's fill cursor is below `E`, an access performs no
eviction: the `evictions` counter is unchanged and every valid line keeps its
validity and its tag (the hit path only restamps `lru`/`dirty` of the
matched line; the cold path writes an invalid line). -/
lemma update_cache_no_evict (st : SimState) (a s b E : Nat) (Op : Char)
    (hinv : SimInv st s E b) (hE : 1 ≤ E)
    (hc : (targetSet st a s b).line_index < E) :
    (update_cache st a s b E Op).stats.evictions = st.stats.evictions ∧
    ∀ k i, (lineAt (st.sets.getD k default) i).valid = true →
      (lineAt ((update_cache st a s b E Op).sets.getD k default) i).valid =
        true ∧
      (lineAt ((update_cache st a s b E Op).sets.getD k default) i).tag =
        (lineAt (st.sets.getD k default) i).tag := by
  obtain ⟨hlen, hwf, -⟩ := hinv
  have hidxlt : set_index_of a s b < st.sets.length := by
    rw [hlen]; exact set_index_lt a s b
  obtain ⟨hlenE, hcur, hval⟩ := hwf (set_index_of a s b) hidxlt
  have htgt : targetSet st a s b = st.sets.getD (set_index_of a s b) default :=
    rfl
  cases hfh : firstHitIdx (targetSet st a s b) (tag_index_of a s b) E with
  | some j =>
    rw [update_cache_hit st a s b E Op j hfh]
    refine ⟨rfl, ?_⟩
    intro k i hv
    by_cases hk : k = set_index_of a s b
    · subst hk
      rw [show ((st.sets.set (set_index_of a s b) _).getD
        (set_index_of a s b) default) =
        { targetSet st a s b with
          lines := (targetSet st a s b).lines.set j
            (hitLine (lineAt (targetSet st a s b) j) Op st.timeStamp) } from
        getD_set_self _ _ _ _ hidxlt]
      show ((((targetSet st a s b).lines.set j _).getD i default).valid = true)
        ∧ ((((targetSet st a s b).lines.set j _).getD i default).tag = _)
      by_cases hij : i = j
      · subst hij
        by_cases hin : i < (targetSet st a s b).lines.length
        · rw [getD_set_self _ _ _ _ hin]
          exact ⟨by rw [hitLine_valid]; exact hv, hitLine_tag _ _ _⟩
        · rw [set_out _ _ _ (by omega)]
          exact ⟨hv, rfl⟩
      · rw [getD_set_ne _ _ _ _ _ hij]
        exact ⟨hv, rfl⟩
    · rw [getD_set_ne _ _ _ _ _ hk]
      exact ⟨hv, rfl⟩
  | none =>
    rw [update_cache_cold st a s b E Op hfh hc]
    refine ⟨rfl, ?_⟩
    intro k i hv
    by_cases hk : k = set_index_of a s b
    · subst hk
      rw [show ((st.sets.set (set_index_of a s b) _).getD
        (set_index_of a s b) default) =
        { lines := (targetSet st a s b).lines.set
            (targetSet st a s b).line_index
            (newLine (tag_index_of a s b) Op st.timeStamp),
          line_index := (targetSet st a s b).line_index + 1 } from
        getD_set_self _ _ _ _ hidxlt]
      show ((((targetSet st a s b).lines.set _ _).getD i default).valid = true)
        ∧ ((((targetSet st a s b).lines.set _ _).getD i default).tag = _)
      by_cases hij : i = (targetSet st a s b).line_index
      · -- the filled line was invalid, contradicting `hv`
        exfalso
        have hc' : (st.sets.getD (set_index_of a s b) default).line_index <
            E := hc
        have hij' : i = (st.sets.getD (set_index_of a s b)
            default).line_index := hij
        have hiE : i < E := by omega
        have := (hval i hiE).mp hv
        omega
      · rw [getD_set_ne _ _ _ _ _ hij]
        exact ⟨hv, rfl⟩
    · rw [getD_set_ne _ _ _ _ _ hk]
      exact ⟨hv, rfl⟩

/-! ### Claim theorems -/

/-- **C1** (confirmed).  After every `access(address, op, size)` call the
`dirty_bytes` counter equals the sum, over all lines in all sets that have
`valid = true` and `dirty = true`, of the block size `2^b`.  The theorem
quantifies over every trace, and every prefix of a trace is itself a trace
replayed from the same initial cache, so the equation holds after every
single `access()` call, not only at trace end.  `E ≥ 1` is the configuration
precondition (at least one line per set; with `E = 0` the C code would index
`lines[0]` of an empty array). -/
theorem C1_dirty_bytes_invariant (s b E : Nat) (hE : 1 ≤ E)
    (t : List (Char × Nat)) :
    (runTrace s b E t).stats.dirty_bytes =
      dirtyByteSum (runTrace s b E t).sets b := by
  rw [dirtyByteSum_eq]
  exact (runTrace_inv s b E hE t).2.2

theorem C1_witness :
    1 ≤ 1 ∧
    (runTrace 1 4 1
      [('L', 0x0), ('L', 0x14), ('L', 0x0), ('S', 0x40)]).stats.dirty_bytes =
      dirtyByteSum (runTrace 1 4 1
        [('L', 0x0), ('L', 0x14), ('L', 0x0), ('S', 0x40)]).sets 4 :=
  ⟨by decide, C1_dirty_bytes_invariant 1 4 1 (by decide) _⟩

/-- **C2** (counterexample to the claim as stated).  The claim says the
logical clock is incremented exactly once per access, so after two accesses
from the initial clock value `0` it would read `2`.  With `s = 0`, `b = 0`,
`E = 1`, the trace `L 0; L 1` performs a cold fill and then an
eviction-driven fill, and the clock reads `3`: `detect_othermiss` increments
the clock twice — once inside `update_cacheline` and once more at
`lines[lru_index].lru = timeStamp++`. -/
theorem C2_clock_cex :
    (initCache 0 1 0).timeStamp = 0 ∧
    (runTrace 0 0 1 [('L', 0), ('L', 1)]).timeStamp = 3 ∧
    ¬ (runTrace 0 0 1 [('L', 0), ('L', 1)]).timeStamp = 2 := by
  decide

/-- **C2** (amended).  The logical clock is strictly increasing across every
`access()`; it is incremented exactly once on a hit, exactly once on a
cold-miss fill, but exactly **twice** on an eviction-driven fill (once inside
`update_cacheline` and once by the extra restamp in `detect_othermiss`). -/
theorem C2_clock_increments (st : SimState) (a s b E : Nat) (Op : Char) :
    (update_cache st a s b E Op).timeStamp =
      st.timeStamp +
        (if (detect_hit (targetSet st a s b) (tag_index_of a s b) E b Op
              st.timeStamp st.stats).isSome then 1
         else if (targetSet st a s b).line_index < E then 1 else 2) ∧
    st.timeStamp < (update_cache st a s b E Op).timeStamp := by
  rw [detect_hit_eq]
  cases hfh : firstHitIdx (targetSet st a s b) (tag_index_of a s b) E with
  | some j =>
    rw [update_cache_hit st a s b E Op j hfh]
    simp [hfh]
  | none =>
    by_cases hc : (targetSet st a s b).line_index < E
    · rw [update_cache_cold st a s b E Op hfh hc]
      simp [hfh, hc]
    · rw [update_cache_evict st a s b E Op hfh hc]
      simp [hfh, hc]

/-- **C5** (confirmed).  For every address and every configuration with
`s + b < 64`, `update_cache` decomposes the address as
`tag = a >> (b + s)` and `set_index = (a >> b) & ((1 << s) - 1)`, except
that for `s = 0` the set index is `0` unconditionally.  The decomposition is
a pure function of `(a, s, b)` (it is a Lean function with no state), so it
has no side effects. -/
theorem C5_address_decomposition (a s b : Nat) (h : s + b < 64) :
    tag_index_of a s b = a >>> (b + s) ∧
    set_index_of a s b =
      (if s = 0 then 0 else (a >>> b) &&& ((1 <<< s) - 1)) := by
  constructor
  · unfold tag_index_of
    rw [Nat.add_comm]
  · unfold set_index_of
    by_cases hs : s = 0
    · simp [hs]
    · simp only [hs, ite_false, if_neg, not_false_iff]
      rw [mask_eq s (by omega) (by omega), Nat.one_shiftLeft]

theorem C5_witness :
    1 + 4 < 64 ∧
    (tag_index_of 0x14 1 4 = 0x14 >>> (4 + 1) ∧
      set_index_of 0x14 1 4 =
        (if (1 : Nat) = 0 then 0 else (0x14 >>> 4) &&& ((1 <<< 1) - 1))) :=
  ⟨by decide, C5_address_decomposition 0x14 1 4 (by decide)⟩

/-- **C8** (confirmed).  Every `access()` call increments exactly one of the
`hits` and `misses` counters, by exactly one (second conjunct); consequently
after replaying any record sequence, `hits + misses` equals the number of
`access()` calls performed (first conjunct). -/
theorem C8_hits_misses_partition (s b E : Nat) (t : List (Char × Nat)) :
    ((runTrace s b E t).stats.hits + (runTrace s b E t).stats.misses =
      t.length) ∧
    ∀ (st : SimState) (a : Nat) (Op : Char),
      ((update_cache st a s b E Op).stats.hits = st.stats.hits + 1 ∧
       (update_cache st a s b E Op).stats.misses = st.stats.misses) ∨
      ((update_cache st a s b E Op).stats.hits = st.stats.hits ∧
       (update_cache st a s b E Op).stats.misses = st.stats.misses + 1) := by
  constructor
  · have h := foldl_hits_misses s b E t (initCache s E b)
    simpa [runTrace, initCache] using h
  · intro st a Op
    exact update_cache_hits_misses st a s b E Op

/-- **C10** (confirmed).  Closed-form frame property of `detect_hit`: the
scan returns `some` exactly when some line among the first `lines_no`
matches (`firstHitIdx`), and then the only changes are: the matched line `j`
is replaced by `hitLine` of itself (same `valid` and `tag`; `lru` stamped
with the clock; `dirty` set exactly on a store to a clean line), the set's
`line_index` is untouched (the `{ cs with lines := ... }` update), the clock
advances by exactly one, and the statistics change by `hitStats` (`hits + 1`;
`dirty_bytes` grows by the block size exactly on a clean-line store;
`misses`, `evictions`, `dirty_evictions` untouched).  When the scan misses
it returns `none` and no state is changed (the C loop mutates nothing on the
fall-through path). -/
theorem C10_detect_hit_frame (cs : CacheSet)
    (tag_index lines_no block_bits : Nat) (Op : Char) (ts : Nat) (st : Stats) :
    detect_hit cs tag_index lines_no block_bits Op ts st =
      (firstHitIdx cs tag_index lines_no).map (fun j =>
        ({ cs with lines := cs.lines.set j (hitLine (lineAt cs j) Op ts) },
         ts + 1, hitStats st (lineAt cs j) Op block_bits)) :=
  detect_hit_eq cs tag_index lines_no block_bits Op ts st

/-- **C3** (confirmed).  Whenever the eviction path runs (`detect_othermiss`,
entered when the set's fill cursor equals `E`), the victim index chosen by
`line2replace` is in range, its `lru` is the minimum among the set's `E`
lines at that moment, every line before it has a strictly larger `lru` (so
among ties the lowest index is chosen), and `detect_othermiss` overwrites
exactly that line (replacing it with the freshly filled `evictLine`). -/
theorem C3_eviction_minimality (cs : CacheSet) (E : Nat) (hE : 1 ≤ E)
    (tag_index block_bits : Nat) (Op : Char) (ts : Nat) (st : Stats) :
    line2replace cs E < E ∧
    (∀ i, i < E → (lineAt cs (line2replace cs E)).lru ≤ (lineAt cs i).lru) ∧
    (∀ i, i < line2replace cs E →
      (lineAt cs (line2replace cs E)).lru < (lineAt cs i).lru) ∧
    (detect_othermiss cs tag_index block_bits E Op ts st).1.lines =
      cs.lines.set (line2replace cs E) (evictLine tag_index Op ts) := by
  obtain ⟨h1, h2, h3⟩ := line2replace_spec cs E hE
  exact ⟨h1, h2, h3, rfl⟩

theorem C3_witness :
    1 ≤ 3 ∧
    (line2replace ⟨[⟨true, false, 5, 10⟩, ⟨true, true, 6, 3⟩,
        ⟨true, false, 7, 3⟩], 3⟩ 3 < 3 ∧
    (∀ i, i < 3 →
      (lineAt ⟨[⟨true, false, 5, 10⟩, ⟨true, true, 6, 3⟩,
          ⟨true, false, 7, 3⟩], 3⟩
        (line2replace ⟨[⟨true, false, 5, 10⟩, ⟨true, true, 6, 3⟩,
          ⟨true, false, 7, 3⟩], 3⟩ 3)).lru ≤
      (lineAt ⟨[⟨true, false, 5, 10⟩, ⟨true, true, 6, 3⟩,
          ⟨true, false, 7, 3⟩], 3⟩ i).lru) ∧
    (∀ i, i < line2replace ⟨[⟨true, false, 5, 10⟩, ⟨true, true, 6, 3⟩,
        ⟨true, false, 7, 3⟩], 3⟩ 3 →
      (lineAt ⟨[⟨true, false, 5, 10⟩, ⟨true, true, 6, 3⟩,
          ⟨true, false, 7, 3⟩], 3⟩
        (line2replace ⟨[⟨true, false, 5, 10⟩, ⟨true, true, 6, 3⟩,
          ⟨true, false, 7, 3⟩], 3⟩ 3)).lru <
      (lineAt ⟨[⟨true, false, 5, 10⟩, ⟨true, true, 6, 3⟩,
          ⟨true, false, 7, 3⟩], 3⟩ i).lru) ∧
    (detect_othermiss ⟨[⟨true, false, 5, 10⟩, ⟨true, true, 6, 3⟩,
        ⟨true, false, 7, 3⟩], 3⟩ 9 4 3 'S' 100 ⟨0, 0, 0, 0, 0⟩).1.lines =
      ([⟨true, false, 5, 10⟩, ⟨true, true, 6, 3⟩,
        ⟨true, false, 7, 3⟩] : List Cacheline).set
        (line2replace ⟨[⟨true, false, 5, 10⟩, ⟨true, true, 6, 3⟩,
          ⟨true, false, 7, 3⟩], 3⟩ 3) (evictLine 9 'S' 100)) :=
  ⟨by decide, C3_eviction_minimality ⟨[⟨true, false, 5, 10⟩,
    ⟨true, true, 6, 3⟩, ⟨true, false, 7, 3⟩], 3⟩ 3 (by decide) 9 4 'S' 100
    ⟨0, 0, 0, 0, 0⟩⟩

/-- **C4** (confirmed).  First conjunct: on any hit (the scan finds its first
match at line `j`), `dirty_bytes` grows by `2^b` exactly when the operation
is a store and line `j` was clean, and is unchanged otherwise — in
particular, a store hit to an already-dirty line leaves `dirty_bytes`
unchanged.  Second conjunct: repeating the same store to the same address
leaves `dirty_bytes` unchanged (the second store hits the line dirtied by
the first). -/
theorem C4_store_hit_dirty_gate (st : SimState) (a s b E : Nat) (Op : Char)
    (hinv : SimInv st s E b) (hE : 1 ≤ E) :
    (∀ j, firstHitIdx (targetSet st a s b) (tag_index_of a s b) E = some j →
      (update_cache st a s b E Op).stats.dirty_bytes =
        (if Op == 'S' && !(lineAt (targetSet st a s b) j).dirty
         then st.stats.dirty_bytes + 2 ^ b else st.stats.dirty_bytes)) ∧
    (update_cache (update_cache st a s b E 'S') a s b E 'S').stats.dirty_bytes
      = (update_cache st a s b E 'S').stats.dirty_bytes := by
  constructor
  · intro j hj
    rw [update_cache_hit st a s b E Op j hj]
    rfl
  · obtain ⟨j, hj, hd⟩ := store_first_match st a s b E hinv hE
    rw [update_cache_hit (update_cache st a s b E 'S') a s b E 'S' j hj]
    show (if ('S' == 'S') &&
        !(lineAt (targetSet (update_cache st a s b E 'S') a s b) j).dirty
      then _ + 2 ^ b else _) = _
    rw [hd]
    simp

theorem C4_witness :
    (update_cache (update_cache (initCache 1 1 4) 0x40 1 4 1 'S')
        0x40 1 4 1 'S').stats.dirty_bytes =
      (update_cache (initCache 1 1 4) 0x40 1 4 1 'S').stats.dirty_bytes :=
  (C4_store_hit_dirty_gate (initCache 1 1 4) 0x40 1 4 1 'S'
    (simInv_init 1 1 4) (by decide)).2

/-- **C6** (confirmed).  For every set, the fill cursor is non-decreasing
across any access appended to any trace (so over the whole run) and never
exceeds `E`; and while the target set's fill cursor is strictly below `E`,
the access increments no `evictions` counter and overwrites no valid line
(every valid line keeps `valid = true` and its tag). -/
theorem C6_fill_cursor_monotone (s b E : Nat) (hE : 1 ≤ E)
    (t : List (Char × Nat)) (Op : Char) (a : Nat) :
    (∀ k, ((runTrace s b E t).sets.getD k default).line_index ≤
        ((runTrace s b E (t ++ [(Op, a)])).sets.getD k default).line_index) ∧
    (∀ k, ((runTrace s b E t).sets.getD k default).line_index ≤ E) ∧
    (((runTrace s b E t).sets.getD (set_index_of a s b)
        default).line_index < E →
      (runTrace s b E (t ++ [(Op, a)])).stats.evictions =
        (runTrace s b E t).stats.evictions ∧
      ∀ k i,
        (lineAt ((runTrace s b E t).sets.getD k default) i).valid = true →
        (lineAt ((runTrace s b E (t ++ [(Op, a)])).sets.getD k default)
          i).valid = true ∧
        (lineAt ((runTrace s b E (t ++ [(Op, a)])).sets.getD k default)
          i).tag =
          (lineAt ((runTrace s b E t).sets.getD k default) i).tag) := by
  rw [runTrace_append]
  refine ⟨?_, ?_, ?_⟩
  · intro k
    exact update_cache_cursor_mono (runTrace s b E t) a s b E Op k
  · intro k
    exact runTrace_cursor_le s b E hE t k
  · intro hc
    exact update_cache_no_evict (runTrace s b E t) a s b E Op
      (runTrace_inv s b E hE t) hE hc

theorem C6_witness :
    (runTrace 1 4 1 ([] ++ [('L', 0)])).stats.evictions =
      (runTrace 1 4 1 []).stats.evictions :=
  ((C6_fill_cursor_monotone 1 4 1 (by decide) [] 'L' 0).2.2 (by decide)).1

/-- After one access in a direct-mapped cache (`E = 1`), the target set is
full (cursor `1`) and its single line is valid and holds the tag of the
accessed address, whichever of the three paths the access took. -/
lemma direct_mapped_after (st : SimState) (s b a1 : Nat) (Op1 : Char)
    (hinv : SimInv st s 1 b) :
    (targetSet (update_cache st a1 s b 1 Op1) a1 s b).line_index = 1 ∧
    (targetSet (update_cache st a1 s b 1 Op1) a1 s b).lines.length = 1 ∧
    (lineAt (targetSet (update_cache st a1 s b 1 Op1) a1 s b) 0).valid =
      true ∧
    (lineAt (targetSet (update_cache st a1 s b 1 Op1) a1 s b) 0).tag =
      tag_index_of a1 s b := by
  obtain ⟨hlen, hwf, -⟩ := hinv
  have hidxlt : set_index_of a1 s b < st.sets.length := by
    rw [hlen]; exact set_index_lt a1 s b
  have hwfT : SetWf (targetSet st a1 s b) 1 := hwf _ hidxlt
  obtain ⟨hlenE, hcur, hval⟩ := hwfT
  cases hfh : firstHitIdx (targetSet st a1 s b) (tag_index_of a1 s b) 1 with
  | some j =>
    rw [update_cache_hit st a1 s b 1 Op1 j hfh]
    have hspec := firstHitIdxGo_some (targetSet st a1 s b)
      (tag_index_of a1 s b) 1 0 j hfh
    have hj0 : j = 0 := by omega
    subst hj0
    have hv := hitMatch_valid _ _ hspec.2.2.1
    have htag := hitMatch_tag _ _ hspec.2.2.1
    have hnew : targetSet
        { sets := st.sets.set (set_index_of a1 s b)
            { targetSet st a1 s b with
              lines := (targetSet st a1 s b).lines.set 0
                (hitLine (lineAt (targetSet st a1 s b) 0) Op1 st.timeStamp) },
          timeStamp := st.timeStamp + 1,
          stats := hitStats st.stats (lineAt (targetSet st a1 s b) 0) Op1 b }
        a1 s b =
        { targetSet st a1 s b with
          lines := (targetSet st a1 s b).lines.set 0
            (hitLine (lineAt (targetSet st a1 s b) 0) Op1 st.timeStamp) } := by
      show (st.sets.set (set_index_of a1 s b) _).getD (set_index_of a1 s b)
        default = _
      exact getD_set_self _ _ _ _ hidxlt
    rw [hnew]
    have h0cur : 0 < (targetSet st a1 s b).line_index := (hval 0 (by omega)).mp hv
    refine ⟨?_, ?_, ?_, ?_⟩
    · show (targetSet st a1 s b).line_index = 1
      omega
    · show ((targetSet st a1 s b).lines.set 0 _).length = 1
      rw [List.length_set]
      exact hlenE
    · show (((targetSet st a1 s b).lines.set 0 _).getD 0 default).valid = true
      rw [getD_set_self _ _ _ _ (by omega), hitLine_valid]
      exact hv
    · show (((targetSet st a1 s b).lines.set 0 _).getD 0 default).tag = _
      rw [getD_set_self _ _ _ _ (by omega), hitLine_tag]
      exact htag
  | none =>
    by_cases hc : (targetSet st a1 s b).line_index < 1
    · rw [update_cache_cold st a1 s b 1 Op1 hfh hc]
      have hc0 : (targetSet st a1 s b).line_index = 0 := by omega
      have hnew : targetSet
          { sets := st.sets.set (set_index_of a1 s b)
              { lines := (targetSet st a1 s b).lines.set
                  (targetSet st a1 s b).line_index
                  (newLine (tag_index_of a1 s b) Op1 st.timeStamp),
                line_index := (targetSet st a1 s b).line_index + 1 },
            timeStamp := st.timeStamp + 1,
            stats := coldStats st.stats Op1 b } a1 s b =
          { lines := (targetSet st a1 s b).lines.set
              (targetSet st a1 s b).line_index
              (newLine (tag_index_of a1 s b) Op1 st.timeStamp),
            line_index := (targetSet st a1 s b).line_index + 1 } := by
        show (st.sets.set (set_index_of a1 s b) _).getD (set_index_of a1 s b)
          default = _
        exact getD_set_self _ _ _ _ hidxlt
      rw [hnew]
      refine ⟨?_, ?_, ?_, ?_⟩
      · show (targetSet st a1 s b).line_index + 1 = 1
        omega
      · show ((targetSet st a1 s b).lines.set _ _).length = 1
        rw [List.length_set]
        exact hlenE
      · show (((targetSet st a1 s b).lines.set _ _).getD 0 default).valid =
          true
        rw [hc0, getD_set_self _ _ _ _ (by omega)]
        rfl
      · show (((targetSet st a1 s b).lines.set _ _).getD 0 default).tag = _
        rw [hc0, getD_set_self _ _ _ _ (by omega)]
        rfl
    · rw [update_cache_evict st a1 s b 1 Op1 hfh hc]
      have hj0 : line2replace (targetSet st a1 s b) 1 = 0 := by
        have := (line2replace_spec (targetSet st a1 s b) 1 (by omega)).1
        omega
      have hnew : targetSet
          { sets := st.sets.set (set_index_of a1 s b)
              { targetSet st a1 s b with
                lines := (targetSet st a1 s b).lines.set
                  (line2replace (targetSet st a1 s b) 1)
                  (evictLine (tag_index_of a1 s b) Op1 st.timeStamp) },
            timeStamp := st.timeStamp + 2,
            stats := evictStats st.stats
              (lineAt (targetSet st a1 s b)
                (line2replace (targetSet st a1 s b) 1)).dirty Op1 b } a1 s b =
          { targetSet st a1 s b with
            lines := (targetSet st a1 s b).lines.set
              (line2replace (targetSet st a1 s b) 1)
              (evictLine (tag_index_of a1 s b) Op1 st.timeStamp) } := by
        show (st.sets.set (set_index_of a1 s b) _).getD (set_index_of a1 s b)
          default = _
        exact getD_set_self _ _ _ _ hidxlt
      rw [hnew]
      refine ⟨?_, ?_, ?_, ?_⟩
      · show (targetSet st a1 s b).line_index = 1
        omega
      · show ((targetSet st a1 s b).lines.set _ _).length = 1
        rw [List.length_set]
        exact hlenE
      · show (((targetSet st a1 s b).lines.set _ _).getD 0 default).valid =
          true
        rw [hj0, getD_set_self _ _ _ _ (by omega)]
        rfl
      · show (((targetSet st a1 s b).lines.set _ _).getD 0 default).tag = _
        rw [hj0, getD_set_self _ _ _ _ (by omega)]
        rfl

/-- **C7** (counterexample to the claim as stated).  Addresses `0x0` and
`0x1` are different and map to the same set (`s = 1`, `b = 4`, `E = 1`), and
the first access fills that set (cursor `= 1 = E`), but the second access
HITS (same tag, different block offset): `misses` stays at `1`, `hits`
becomes `1` and no eviction happens — contradicting "the second access
always misses and evicts". -/
theorem C7_direct_mapped_cex :
    (0 : Nat) ≠ 1 ∧
    set_index_of 0 1 4 = set_index_of 1 1 4 ∧
    ((runTrace 1 4 1 [('L', 0)]).sets.getD (set_index_of 0 1 4)
      default).line_index = 1 ∧
    (runTrace 1 4 1 [('L', 0), ('L', 1)]).stats.misses = 1 ∧
    (runTrace 1 4 1 [('L', 0), ('L', 1)]).stats.evictions = 0 ∧
    (runTrace 1 4 1 [('L', 0), ('L', 1)]).stats.hits = 1 := by
  decide

/-- **C7** (amended).  In a direct-mapped configuration (`E = 1`), for every
two addresses that map to the same set **with different tags**, the second
access always misses and evicts: from any invariant-satisfying state, after
accessing `a1`, accessing `a2` increments both `misses` and `evictions` by
one.  (The condition on tags is what the counterexample forces: two
different addresses in the same block share set and tag, and the second
access then hits.)  The hypothesis "the first access filled that set" of the
original claim is automatic: with `E = 1` the target set is always full
right after the first access. -/
theorem C7_direct_mapped_conflict (st : SimState) (s b a1 a2 : Nat)
    (Op1 Op2 : Char) (hinv : SimInv st s 1 b)
    (hset : set_index_of a1 s b = set_index_of a2 s b)
    (htag : tag_index_of a1 s b ≠ tag_index_of a2 s b) :
    (update_cache (update_cache st a1 s b 1 Op1) a2 s b 1 Op2).stats.misses =
      (update_cache st a1 s b 1 Op1).stats.misses + 1 ∧
    (update_cache (update_cache st a1 s b 1 Op1) a2 s b 1
        Op2).stats.evictions =
      (update_cache st a1 s b 1 Op1).stats.evictions + 1 := by
  obtain ⟨hcur1, hlen1, hv1, htag1⟩ := direct_mapped_after st s b a1 Op1 hinv
  have hts : targetSet (update_cache st a1 s b 1 Op1) a2 s b =
      targetSet (update_cache st a1 s b 1 Op1) a1 s b := by
    unfold targetSet
    rw [← hset]
  have hmm : hitMatch
      (lineAt (targetSet (update_cache st a1 s b 1 Op1) a1 s b) 0)
      (tag_index_of a2 s b) = false := by
    simp [hitMatch, hv1, htag1]
    intro h
    exact absurd h htag
  have hmiss : firstHitIdx (targetSet (update_cache st a1 s b 1 Op1) a2 s b)
      (tag_index_of a2 s b) 1 = none := by
    rw [hts]
    show firstHitIdxGo (targetSet (update_cache st a1 s b 1 Op1) a1 s b)
      (tag_index_of a2 s b) 0 1 = none
    simp [firstHitIdxGo, hmm]
  have hc2 : ¬ (targetSet (update_cache st a1 s b 1 Op1) a2 s b).line_index
      < 1 := by
    rw [hts, hcur1]
    omega
  rw [update_cache_evict (update_cache st a1 s b 1 Op1) a2 s b 1 Op2 hmiss
    hc2]
  exact ⟨rfl, rfl⟩

theorem C7_witness :
    (update_cache (update_cache (initCache 2 1 4) 0 2 4 1 'L')
        0x40 2 4 1 'L').stats.misses =
      (update_cache (initCache 2 1 4) 0 2 4 1 'L').stats.misses + 1 ∧
    (update_cache (update_cache (initCache 2 1 4) 0 2 4 1 'L')
        0x40 2 4 1 'L').stats.evictions =
      (update_cache (initCache 2 1 4) 0 2 4 1 'L').stats.evictions + 1 :=
  C7_direct_mapped_conflict (initCache 2 1 4) 2 4 0 0x40 'L' 'L'
    (simInv_init 2 1 4) (by decide) (by decide)

/-- **C9** (confirmed).  In every reachable state, for every set, exactly
the lines at indices strictly below the set's fill cursor are valid (first
conjunct: valid iff below cursor, so lines at or above the cursor are
invalid); consequently, once a line is valid it stays valid across any
further access (second conjunct). -/
theorem C9_valid_iff_below_cursor (s b E : Nat) (hE : 1 ≤ E)
    (t : List (Char × Nat)) :
    (∀ cs ∈ (runTrace s b E t).sets, ∀ i, i < E →
      ((lineAt cs i).valid = true ↔ i < cs.line_index)) ∧
    (∀ (Op : Char) (a k i : Nat),
      (lineAt ((runTrace s b E t).sets.getD k default) i).valid = true →
      (lineAt ((runTrace s b E (t ++ [(Op, a)])).sets.getD k default)
        i).valid = true) := by
  constructor
  · intro cs hcs i hi
    obtain ⟨n, hn⟩ := List.mem_iff_get.mp hcs
    have hn' : (runTrace s b E t).sets.getD n.1 default = cs := by
      rw [getD_eq_get _ _ _ n.2]
      rw [← hn]
    have hwf := (runTrace_inv s b E hE t).2.1 n.1 n.2
    rw [hn'] at hwf
    exact hwf.2.2 i hi
  · intro Op a k i hv
    rw [runTrace_append]
    exact update_cache_valid_mono (runTrace s b E t) a s b E Op k i hv

theorem C9_witness :
    (lineAt ((runTrace 1 4 1 ([('L', 0)] ++ [('S', 0x40)])).sets.getD 0
      default) 0).valid = true :=
  (C9_valid_iff_below_cursor 1 4 1 (by decide) [('L', 0)]).2 'S' 0x40 0 0
    (by decide)

end Csim
